import Mathlib

/-!
Verification of the hierarchical sky-pixelization and patch-extraction
subsystem of `ADL/preproc/HEALPix.py`.

Modelling conventions (shallow embedding):

* A numpy 2-D array is a `Matr α`: a pair of extents together with its entry
  function.  The in-place quadrant recursion of `recursive_fill` acts on
  disjoint sub-views and is pointwise, so it is embedded as a function from
  the initial entry function to the final entry function, indexed by the
  recursion depth (`matr.shape[0] = 2 ^ depth`; the only caller,
  `one_pixel_fragmentation`, always passes a power-of-two-sized matrix).
* A flat HEALPix sky array (`np.zeros(npix)` plus index assignments) is a
  `List Int`; vectorised assignment `h[ixs] = 1` is `setOnes`.
* Machine integers are modelled as `Nat`: all pixel values reached by the
  claims stay far below 2^63, where numpy's int64 agrees with `Nat`.
* `int(np.log2(f_nside / o_nside))` is modelled as `Nat.log2 (f_nside /
  o_nside)`; the two agree whenever `o_nside ≤ f_nside` (for a power of
  two the float log is exact, and for non-powers such as 3 both truncate
  to the floor), and every theorem below stays in that domain — for
  `f_nside ≤ o_nside / 2` the source crashes on a negative depth instead
  (see `one_pixel_fragmentation`).
* The external collaborators (astropy `SkyCoord`, healpy `ang2pix`,
  `ang2vec`, `vec2pix`, `query_disc`) are opaque: they are parameters of the
  definitions that consume them (`Sky`, `r2p`), never reimplemented.
-/

/-- A 2-D array: row extent, column extent and the entry function. -/
structure Matr (α : Type) where
  nrows : Nat
  ncols : Nat
  val : Nat → Nat → α

/-- Source `hp.nside2npix`: total pixel count `12 * nside^2`. -/
def nside2npix (nside : Nat) : Nat := 12 * nside * nside

/-- Function `recursive_fill` of `HEALPix.py`, embedded as the entry function it
leaves behind.  `d` is the recursion depth (the matrix side is `2 ^ d`; the
Python code tests `matr.shape[0] == 1`, i.e. `d = 0`).  One level doubles
every entry, adds 1 on the lower half of the rows, doubles again, adds 1 on
the right half of the columns, and recurses into the four `mid × mid`
quadrant sub-views; the sub-view containing global cell `(r, c)` starts at
`(mid * (r / mid), mid * (c / mid))` and the cell is `(r % mid, c % mid)`
inside it. -/
def recursive_fill : Nat → (Nat → Nat → Nat) → Nat → Nat → Nat
  | 0, m => m
  | d + 1, m => fun r c =>
      let mid := 2 ^ d
      recursive_fill d
        (fun i j =>
          2 * (2 * m (mid * (r / mid) + i) (mid * (c / mid) + j)
                + (if mid ≤ mid * (r / mid) + i then 1 else 0))
            + (if mid ≤ mid * (c / mid) + j then 1 else 0))
        (r % mid) (c % mid)

/-- Function `one_pixel_fragmentation(o_nside, o_pix, f_nside)`: the correspondence
matrix between two nsides for one coarse pixel.  `depth =
int(np.log2(f_nside / o_nside))`, the matrix starts as `np.full((2^depth,
2^depth), o_pix)` and is filled by `recursive_fill`.  No validation of the
resolution ratio is performed by the source.  `Nat.log2 (f_nside /
o_nside)` equals `int(np.log2(f_nside / o_nside))` whenever `o_nside ≤
f_nside` (both are the floor of the real log, nonnegative there); for
`f_nside ≤ o_nside / 2` the source instead computes a negative depth and
`np.full` raises a TypeError on the float shape `2 ** depth` — an
accidental crash this embedding does not model, so every theorem about
this definition stays inside `o_nside ≤ f_nside`. -/
def one_pixel_fragmentation (o_nside o_pix f_nside : Nat) : Matr Nat :=
  let depth := Nat.log2 (f_nside / o_nside)
  let m_len := 2 ^ depth
  ⟨m_len, m_len, recursive_fill depth (fun _ _ => o_pix)⟩

/-- The two bits `(row-half, column-half)` interleaved level by level: the
closed form of the offset `recursive_fill` adds to `o_pix * 4 ^ depth`. -/
def interleave : Nat → Nat → Nat → Nat
  | 0, _, _ => 0
  | d + 1, r, c => (2 * (r / 2 ^ d) + c / 2 ^ d) * 4 ^ d + interleave d (r % 2 ^ d) (c % 2 ^ d)

/-- Row deinterleaver: inverse of `interleave` in its first coordinate. -/
def deR : Nat → Nat → Nat
  | 0, _ => 0
  | d + 1, n => n / 4 ^ d / 2 * 2 ^ d + deR d (n % 4 ^ d)

/-- Column deinterleaver: inverse of `interleave` in its second coordinate. -/
def deC : Nat → Nat → Nat
  | 0, _ => 0
  | d + 1, n => n / 4 ^ d % 2 * 2 ^ d + deC d (n % 4 ^ d)

lemma interleave_lt (d : Nat) : ∀ r c, r < 2 ^ d → c < 2 ^ d → interleave d r c < 4 ^ d := by
  induction d with
  | zero => intro r c _ _; simp [interleave]
  | succ d ih =>
    intro r c hr hc
    have h1 : r / 2 ^ d ≤ 1 := by
      have : r / 2 ^ d < 2 := Nat.div_lt_of_lt_mul (by rw [pow_succ] at hr; omega)
      omega
    have h2 : c / 2 ^ d ≤ 1 := by
      have : c / 2 ^ d < 2 := Nat.div_lt_of_lt_mul (by rw [pow_succ] at hc; omega)
      omega
    have h3 := ih (r % 2 ^ d) (c % 2 ^ d)
      (Nat.mod_lt _ (Nat.pos_pow_of_pos d (by norm_num)))
      (Nat.mod_lt _ (Nat.pos_pow_of_pos d (by norm_num)))
    have h4 : (2 * (r / 2 ^ d) + c / 2 ^ d) * 4 ^ d ≤ 3 * 4 ^ d :=
      Nat.mul_le_mul_right _ (by omega)
    have : (4:Nat) ^ (d + 1) = 4 * 4 ^ d := by ring
    simp only [interleave]
    omega

/-- The pointwise closed form of `recursive_fill`: starting matrix `m`, cell
`(r, c)` of the filled matrix is `m r c * 4 ^ d` plus the bit-interleaving
of the cell position. -/
lemma recursive_fill_closed (d : Nat) : ∀ (m : Nat → Nat → Nat) (r c : Nat),
    r < 2 ^ d → c < 2 ^ d →
    recursive_fill d m r c = m r c * 4 ^ d + interleave d r c := by
  induction d with
  | zero => intro m r c _ _; simp [recursive_fill, interleave]
  | succ d ih =>
    intro m r c hr hc
    have hmid : 0 < 2 ^ d := Nat.pos_pow_of_pos d (by norm_num)
    have hrm : r % 2 ^ d < 2 ^ d := Nat.mod_lt _ hmid
    have hcm : c % 2 ^ d < 2 ^ d := Nat.mod_lt _ hmid
    have hre : 2 ^ d * (r / 2 ^ d) + r % 2 ^ d = r := Nat.div_add_mod r (2 ^ d)
    have hce : 2 ^ d * (c / 2 ^ d) + c % 2 ^ d = c := Nat.div_add_mod c (2 ^ d)
    simp only [recursive_fill]
    rw [ih _ _ _ hrm hcm]
    rw [hre, hce]
    have hrdiv : r / 2 ^ d ≤ 1 := by
      have : r / 2 ^ d < 2 := Nat.div_lt_of_lt_mul (by rw [pow_succ] at hr; omega)
      omega
    have hcdiv : c / 2 ^ d ≤ 1 := by
      have : c / 2 ^ d < 2 := Nat.div_lt_of_lt_mul (by rw [pow_succ] at hc; omega)
      omega
    have hrbit : (if 2 ^ d ≤ r then 1 else 0) = r / 2 ^ d := by
      rcases Nat.lt_or_ge r (2 ^ d) with h | h
      · simp [Nat.not_le.mpr h, Nat.div_eq_of_lt h]
      · have h1 : 1 ≤ r / 2 ^ d := (Nat.one_le_div_iff hmid).mpr h
        simp [h]
        omega
    have hcbit : (if 2 ^ d ≤ c then 1 else 0) = c / 2 ^ d := by
      rcases Nat.lt_or_ge c (2 ^ d) with h | h
      · simp [Nat.not_le.mpr h, Nat.div_eq_of_lt h]
      · have h1 : 1 ≤ c / 2 ^ d := (Nat.one_le_div_iff hmid).mpr h
        simp [h]
        omega
    rw [hrbit, hcbit]
    simp only [interleave]
    rw [pow_succ]
    ring

lemma interleave_div_mod (d : Nat) (r c : Nat) :
    interleave (d + 1) r c / 4 ^ d = 2 * (r / 2 ^ d) + c / 2 ^ d ∧
    interleave (d + 1) r c % 4 ^ d = interleave d (r % 2 ^ d) (c % 2 ^ d) := by
  have hmid : 0 < 2 ^ d := Nat.pos_pow_of_pos d (by norm_num)
  have hlt := interleave_lt d (r % 2 ^ d) (c % 2 ^ d) (Nat.mod_lt _ hmid) (Nat.mod_lt _ hmid)
  constructor
  · simp only [interleave]
    rw [add_comm, Nat.add_mul_div_right _ _ (Nat.pos_pow_of_pos d (by norm_num)),
      Nat.div_eq_of_lt hlt, Nat.zero_add]
  · simp only [interleave]
    rw [add_comm, Nat.add_mul_mod_self_right, Nat.mod_eq_of_lt hlt]

lemma deR_interleave (d : Nat) : ∀ r c, r < 2 ^ d → c < 2 ^ d →
    deR d (interleave d r c) = r := by
  induction d with
  | zero => intro r c hr hc; interval_cases r <;> simp [deR]
  | succ d ih =>
    intro r c hr hc
    have hmid : 0 < 2 ^ d := Nat.pos_pow_of_pos d (by norm_num)
    have hrm : r % 2 ^ d < 2 ^ d := Nat.mod_lt _ hmid
    have hcm : c % 2 ^ d < 2 ^ d := Nat.mod_lt _ hmid
    obtain ⟨hdiv, hmod⟩ := interleave_div_mod d r c
    have hcb : c / 2 ^ d ≤ 1 := by
      have : c / 2 ^ d < 2 := Nat.div_lt_of_lt_mul (by rw [pow_succ] at hc; omega)
      omega
    have step : deR (d + 1) (interleave (d + 1) r c)
        = (2 * (r / 2 ^ d) + c / 2 ^ d) / 2 * 2 ^ d + deR d (interleave d (r % 2 ^ d) (c % 2 ^ d)) := by
      simp only [deR]
      rw [hdiv, hmod]
    rw [step, ih _ _ hrm hcm]
    have hq : (2 * (r / 2 ^ d) + c / 2 ^ d) / 2 = r / 2 ^ d := by
      rw [Nat.mul_add_div (by norm_num)]
      have h0 : c / 2 ^ d / 2 = 0 := Nat.div_eq_of_lt (by omega)
      rw [h0, Nat.add_zero]
    rw [hq]
    exact Nat.div_add_mod' r (2 ^ d)

lemma deC_interleave (d : Nat) : ∀ r c, r < 2 ^ d → c < 2 ^ d →
    deC d (interleave d r c) = c := by
  induction d with
  | zero => intro r c hr hc; interval_cases c <;> simp [deC]
  | succ d ih =>
    intro r c hr hc
    have hmid : 0 < 2 ^ d := Nat.pos_pow_of_pos d (by norm_num)
    have hrm : r % 2 ^ d < 2 ^ d := Nat.mod_lt _ hmid
    have hcm : c % 2 ^ d < 2 ^ d := Nat.mod_lt _ hmid
    obtain ⟨hdiv, hmod⟩ := interleave_div_mod d r c
    have step : deC (d + 1) (interleave (d + 1) r c)
        = (2 * (r / 2 ^ d) + c / 2 ^ d) % 2 * 2 ^ d + deC d (interleave d (r % 2 ^ d) (c % 2 ^ d)) := by
      simp only [deC]
      rw [hdiv, hmod]
    rw [step, ih _ _ hrm hcm]
    have hcb : c / 2 ^ d ≤ 1 := by
      have : c / 2 ^ d < 2 := Nat.div_lt_of_lt_mul (by rw [pow_succ] at hc; omega)
      omega
    have hq : (2 * (r / 2 ^ d) + c / 2 ^ d) % 2 = c / 2 ^ d := by
      rw [Nat.mul_add_mod]
      exact Nat.mod_eq_of_lt (by omega)
    rw [hq]
    exact Nat.div_add_mod' c (2 ^ d)

lemma interleave_surj (d : Nat) : ∀ n, n < 4 ^ d →
    deR d n < 2 ^ d ∧ deC d n < 2 ^ d ∧ interleave d (deR d n) (deC d n) = n := by
  induction d with
  | zero => intro n hn; interval_cases n; simp [deR, deC, interleave]
  | succ d ih =>
    intro n hn
    have h4 : 0 < 4 ^ d := Nat.pos_pow_of_pos d (by norm_num)
    have hmid : 0 < 2 ^ d := Nat.pos_pow_of_pos d (by norm_num)
    have hq : n / 4 ^ d < 4 := Nat.div_lt_of_lt_mul (by rw [pow_succ] at hn; omega)
    have hrest : n % 4 ^ d < 4 ^ d := Nat.mod_lt _ h4
    obtain ⟨ihR, ihC, ihI⟩ := ih (n % 4 ^ d) hrest
    have hRval : deR (d + 1) n = n / 4 ^ d / 2 * 2 ^ d + deR d (n % 4 ^ d) := rfl
    have hCval : deC (d + 1) n = n / 4 ^ d % 2 * 2 ^ d + deC d (n % 4 ^ d) := rfl
    have hRb : n / 4 ^ d / 2 ≤ 1 := by omega
    have hCb : n / 4 ^ d % 2 ≤ 1 := by omega
    have hRlt : deR (d + 1) n < 2 ^ (d + 1) := by
      rw [hRval, pow_succ]
      have : n / 4 ^ d / 2 * 2 ^ d ≤ 1 * 2 ^ d := Nat.mul_le_mul_right _ hRb
      omega
    have hClt : deC (d + 1) n < 2 ^ (d + 1) := by
      rw [hCval, pow_succ]
      have : n / 4 ^ d % 2 * 2 ^ d ≤ 1 * 2 ^ d := Nat.mul_le_mul_right _ hCb
      omega
    refine ⟨hRlt, hClt, ?_⟩
    have hRdiv : deR (d + 1) n / 2 ^ d = n / 4 ^ d / 2 := by
      rw [hRval, add_comm, Nat.add_mul_div_right _ _ hmid, Nat.div_eq_of_lt ihR, Nat.zero_add]
    have hRmod : deR (d + 1) n % 2 ^ d = deR d (n % 4 ^ d) := by
      rw [hRval, add_comm, Nat.add_mul_mod_self_right, Nat.mod_eq_of_lt ihR]
    have hCdiv : deC (d + 1) n / 2 ^ d = n / 4 ^ d % 2 := by
      rw [hCval, add_comm, Nat.add_mul_div_right _ _ hmid, Nat.div_eq_of_lt ihC, Nat.zero_add]
    have hCmod : deC (d + 1) n % 2 ^ d = deC d (n % 4 ^ d) := by
      rw [hCval, add_comm, Nat.add_mul_mod_self_right, Nat.mod_eq_of_lt ihC]
    show (2 * (deR (d + 1) n / 2 ^ d) + deC (d + 1) n / 2 ^ d) * 4 ^ d
        + interleave d (deR (d + 1) n % 2 ^ d) (deC (d + 1) n % 2 ^ d) = n
    rw [hRdiv, hRmod, hCdiv, hCmod, ihI]
    have hqq : 2 * (n / 4 ^ d / 2) + n / 4 ^ d % 2 = n / 4 ^ d := by omega
    rw [hqq]
    exact Nat.div_add_mod' n (4 ^ d)


/-- With an exact power-of-two ratio the builder's depth is that power. -/
lemma one_pixel_fragmentation_pow (o p dep : Nat) (ho : 0 < o) :
    one_pixel_fragmentation o p (o * 2 ^ dep)
      = ⟨2 ^ dep, 2 ^ dep, recursive_fill dep (fun _ _ => p)⟩ := by
  unfold one_pixel_fragmentation
  rw [Nat.mul_div_cancel_left _ ho, Nat.log2_two_pow]

lemma frag_val (o p dep : Nat) (ho : 0 < o) {r c : Nat} (hr : r < 2 ^ dep) (hc : c < 2 ^ dep) :
    (one_pixel_fragmentation o p (o * 2 ^ dep)).val r c = p * 4 ^ dep + interleave dep r c := by
  rw [one_pixel_fragmentation_pow o p dep ho]
  exact recursive_fill_closed dep _ r c hr hc

lemma frag_val_range (o p dep : Nat) (ho : 0 < o) {r c : Nat}
    (hr : r < 2 ^ dep) (hc : c < 2 ^ dep) :
    p * 4 ^ dep ≤ (one_pixel_fragmentation o p (o * 2 ^ dep)).val r c ∧
    (one_pixel_fragmentation o p (o * 2 ^ dep)).val r c < p * 4 ^ dep + 4 ^ dep := by
  rw [frag_val o p dep ho hr hc]
  exact ⟨Nat.le_add_right _ _, by have := interleave_lt dep r c hr hc; omega⟩

lemma frag_inj (o p dep : Nat) (ho : 0 < o) {r c r' c' : Nat}
    (hr : r < 2 ^ dep) (hc : c < 2 ^ dep) (hr' : r' < 2 ^ dep) (hc' : c' < 2 ^ dep)
    (h : (one_pixel_fragmentation o p (o * 2 ^ dep)).val r c
        = (one_pixel_fragmentation o p (o * 2 ^ dep)).val r' c') : r = r' ∧ c = c' := by
  rw [frag_val o p dep ho hr hc, frag_val o p dep ho hr' hc'] at h
  have hI : interleave dep r c = interleave dep r' c' := by omega
  constructor
  · rw [← deR_interleave dep r c hr hc, hI, deR_interleave dep r' c' hr' hc']
  · rw [← deC_interleave dep r c hr hc, hI, deC_interleave dep r' c' hr' hc']

lemma frag_surj (o p dep : Nat) (ho : 0 < o) {v : Nat}
    (h1 : p * 4 ^ dep ≤ v) (h2 : v < p * 4 ^ dep + 4 ^ dep) :
    ∃ r c, r < 2 ^ dep ∧ c < 2 ^ dep ∧
      (one_pixel_fragmentation o p (o * 2 ^ dep)).val r c = v := by
  obtain ⟨hR, hC, hI⟩ := interleave_surj dep (v - p * 4 ^ dep) (by omega)
  exact ⟨deR dep (v - p * 4 ^ dep), deC dep (v - p * 4 ^ dep), hR, hC, by
    rw [frag_val o p dep ho hR hC, hI]; omega⟩

/-- C1.  For every `depth ≥ 0` and valid coarse pixel `p` at `coarse_nside`,
`one_pixel_fragmentation(coarse_nside, p, coarse_nside * 2^depth)` is a
`2^depth × 2^depth` matrix whose cell values form a bijection onto the
nested-scheme descendants `{p * 4^depth, …, p * 4^depth + 4^depth - 1}`:
every value lies in that interval (and is a valid fine pixel), every value
of the interval is attained, and no two cells share a value. -/
theorem fragmentation_is_descendant_bijection (dep o_nside p : Nat)
    (ho : 0 < o_nside) (hp : p < 12 * o_nside * o_nside) :
    (one_pixel_fragmentation o_nside p (o_nside * 2 ^ dep)).nrows = 2 ^ dep ∧
    (one_pixel_fragmentation o_nside p (o_nside * 2 ^ dep)).ncols = 2 ^ dep ∧
    (∀ r c, r < 2 ^ dep → c < 2 ^ dep →
      p * 4 ^ dep ≤ (one_pixel_fragmentation o_nside p (o_nside * 2 ^ dep)).val r c ∧
      (one_pixel_fragmentation o_nside p (o_nside * 2 ^ dep)).val r c < p * 4 ^ dep + 4 ^ dep ∧
      (one_pixel_fragmentation o_nside p (o_nside * 2 ^ dep)).val r c
        < nside2npix (o_nside * 2 ^ dep)) ∧
    (∀ v, p * 4 ^ dep ≤ v → v < p * 4 ^ dep + 4 ^ dep →
      ∃ r c, r < 2 ^ dep ∧ c < 2 ^ dep ∧
        (one_pixel_fragmentation o_nside p (o_nside * 2 ^ dep)).val r c = v) ∧
    (∀ r c r' c', r < 2 ^ dep → c < 2 ^ dep → r' < 2 ^ dep → c' < 2 ^ dep →
      (one_pixel_fragmentation o_nside p (o_nside * 2 ^ dep)).val r c
        = (one_pixel_fragmentation o_nside p (o_nside * 2 ^ dep)).val r' c' →
      r = r' ∧ c = c') := by
  refine ⟨?_, ?_, ?_, ?_, ?_⟩
  · rw [one_pixel_fragmentation_pow o_nside p dep ho]
  · rw [one_pixel_fragmentation_pow o_nside p dep ho]
  · intro r c hr hc
    obtain ⟨h1, h2⟩ := frag_val_range o_nside p dep ho hr hc
    refine ⟨h1, h2, ?_⟩
    have hnpix : (p + 1) * 4 ^ dep ≤ nside2npix (o_nside * 2 ^ dep) := by
      unfold nside2npix
      have hp1 : p + 1 ≤ 12 * o_nside * o_nside := hp
      calc (p + 1) * 4 ^ dep ≤ 12 * o_nside * o_nside * 4 ^ dep :=
            Nat.mul_le_mul_right _ hp1
        _ = 12 * (o_nside * 2 ^ dep) * (o_nside * 2 ^ dep) := by
            rw [show (4:Nat) = 2 * 2 by norm_num, mul_pow]; ring
    have hexp : (p + 1) * 4 ^ dep = p * 4 ^ dep + 4 ^ dep := by ring
    omega
  · intro v h1 h2
    exact frag_surj o_nside p dep ho h1 h2
  · intro r c r' c' hr hc hr' hc' h
    exact frag_inj o_nside p dep ho hr hc hr' hc' h

/-- C1 witness: the spec's own example, `build(2, 5, 8)`. -/
theorem fragmentation_is_descendant_bijection_witness :
    (one_pixel_fragmentation 2 5 (2 * 2 ^ 2)).nrows = 2 ^ 2 ∧
    (one_pixel_fragmentation 2 5 (2 * 2 ^ 2)).ncols = 2 ^ 2 ∧
    (∀ r c, r < 2 ^ 2 → c < 2 ^ 2 →
      5 * 4 ^ 2 ≤ (one_pixel_fragmentation 2 5 (2 * 2 ^ 2)).val r c ∧
      (one_pixel_fragmentation 2 5 (2 * 2 ^ 2)).val r c < 5 * 4 ^ 2 + 4 ^ 2 ∧
      (one_pixel_fragmentation 2 5 (2 * 2 ^ 2)).val r c < nside2npix (2 * 2 ^ 2)) ∧
    (∀ v, 5 * 4 ^ 2 ≤ v → v < 5 * 4 ^ 2 + 4 ^ 2 →
      ∃ r c, r < 2 ^ 2 ∧ c < 2 ^ 2 ∧ (one_pixel_fragmentation 2 5 (2 * 2 ^ 2)).val r c = v) ∧
    (∀ r c r' c', r < 2 ^ 2 → c < 2 ^ 2 → r' < 2 ^ 2 → c' < 2 ^ 2 →
      (one_pixel_fragmentation 2 5 (2 * 2 ^ 2)).val r c
        = (one_pixel_fragmentation 2 5 (2 * 2 ^ 2)).val r' c' → r = r' ∧ c = c') :=
  fragmentation_is_descendant_bijection 2 2 5 (by decide) (by decide)

/-- C2 counterexample: `one_pixel_fragmentation(2, 0, 6)` has a resolution
ratio of 3, not a power of two, yet no error occurs: the call returns an
ordinary 2×2 correspondence matrix, identical to the one built for the valid
pair `(2, 4)` — the fractional depth `log2 3` is silently truncated to 1. -/
theorem fragmentation_no_ratio_validation_cex :
    one_pixel_fragmentation 2 0 6 = one_pixel_fragmentation 2 0 4 ∧
    (one_pixel_fragmentation 2 0 6).nrows = 2 := by
  have h1 : Nat.log2 1 = 0 := by rw [Nat.log2]; norm_num
  have h3 : Nat.log2 3 = 1 := by rw [Nat.log2]; norm_num [h1]
  have h2 : Nat.log2 2 = 1 := by rw [Nat.log2]; norm_num [h1]
  constructor
  · unfold one_pixel_fragmentation
    rw [show (6:Nat) / 2 = 3 from rfl, show (4:Nat) / 2 = 2 from rfl, h3, h2]
  · show (2:Nat) ^ Nat.log2 (6 / 2) = 2
    rw [show (6:Nat) / 2 = 3 from rfl, h3, pow_one]

/-- C2 amended: the source performs no resolution-ratio validation and the
repository defines no `InvalidResolutionRatio` error.  For every
`(o_nside, f_nside)` pair with `0 < o_nside ≤ f_nside` — the upscaling
pairs, where the claim's builder is used — it returns an ordinary matrix of
side `2 ^ int(log2(f_nside / o_nside))`: a non-power-of-two ratio is
silently truncated to the nearest lower power of two, e.g. `(2, 6)` yields
the very matrix built for the valid pair `(2, 4)`.  (For `f_nside ≤
o_nside / 2` the source does abort, but only with an accidental TypeError
from the float shape `2 ** negative_depth`, still no
`InvalidResolutionRatio`; that crash is outside this embedding.) -/
theorem fragmentation_truncates_ratio (o_nside o_pix f_nside : Nat) (ho : 0 < o_nside)
    (hof : o_nside ≤ f_nside) :
    (one_pixel_fragmentation o_nside o_pix f_nside).nrows
        = 2 ^ Nat.log2 (f_nside / o_nside) ∧
    one_pixel_fragmentation o_nside o_pix f_nside
        = one_pixel_fragmentation o_nside o_pix (o_nside * 2 ^ Nat.log2 (f_nside / o_nside)) := by
  constructor
  · rfl
  · rw [one_pixel_fragmentation_pow o_nside o_pix _ ho]
    rfl

/-- C2 amended witness at the concrete invalid pair `(2, 6)`. -/
theorem fragmentation_truncates_ratio_witness :
    (one_pixel_fragmentation 2 0 6).nrows = 2 ^ Nat.log2 (6 / 2) ∧
    one_pixel_fragmentation 2 0 6 = one_pixel_fragmentation 2 0 (2 * 2 ^ Nat.log2 (6 / 2)) :=
  fragmentation_truncates_ratio 2 0 6 (by decide) (by decide)

lemma frag_val_lt_npix (o p dep : Nat) (ho : 0 < o) (hp : p < 12 * o * o) {r c : Nat}
    (hr : r < 2 ^ dep) (hc : c < 2 ^ dep) :
    (one_pixel_fragmentation o p (o * 2 ^ dep)).val r c < nside2npix (o * 2 ^ dep) := by
  obtain ⟨_, h2⟩ := frag_val_range o p dep ho hr hc
  have hnpix : (p + 1) * 4 ^ dep ≤ nside2npix (o * 2 ^ dep) := by
    unfold nside2npix
    calc (p + 1) * 4 ^ dep ≤ 12 * o * o * 4 ^ dep := Nat.mul_le_mul_right _ hp
      _ = 12 * (o * 2 ^ dep) * (o * 2 ^ dep) := by
          rw [show (4:Nat) = 2 * 2 by norm_num, mul_pow]; ring
  have hexp : (p + 1) * 4 ^ dep = p * 4 ^ dep + 4 ^ dep := by ring
  omega

/-- Assignment `h_arr[ixs] = 1`: numpy vectorised assignment of 1 at every index of
`ixs`.  (numpy raises on an out-of-range index; `List.set` leaves the list
unchanged there — every use below stays in range.) -/
def setOnes (h_arr : List Int) (ixs : List Nat) : List Int :=
  ixs.foldl (fun h p => h.set p 1) h_arr

/-- Function `flat_arr2matr(h_arr, pix_matr)`: gather the flat HEALPix array into the
2-D layout of the correspondence matrix — `img[i] = h_arr[pix_matr[i]]` row
by row, so cell `(r, c)` reads `h_arr` at index `pix_matr[r][c]` (out-of-
range reads, which numpy would reject, default to 0). -/
def flat_arr2matr (h_arr : List Int) (pix_matr : Matr Nat) : Matr Int :=
  ⟨pix_matr.nrows, pix_matr.ncols, fun r c => h_arr.getD (pix_matr.val r c) 0⟩

lemma getD_of_lt (l : List Int) {i : Nat} (h : i < l.length) : l.getD i 0 = l[i] :=
  List.getD_eq_getElem l 0 h

lemma getD_replicate (n i : Nat) : (List.replicate n (0:Int)).getD i 0 = 0 := by
  rcases Nat.lt_or_ge i n with h | h
  · rw [List.getD_eq_getElem _ _ (by simpa using h)]
    simp
  · rw [List.getD_eq_default _ _ (by simpa using h)]

lemma length_setOnes (h_arr : List Int) (ixs : List Nat) :
    (setOnes h_arr ixs).length = h_arr.length := by
  induction ixs generalizing h_arr with
  | nil => rfl
  | cons p t ih => simp only [setOnes, List.foldl_cons] at ih ⊢; rw [ih, List.length_set]

lemma getD_set_of_ne (l : List Int) (i j : Nat) (v : Int) (hne : i ≠ j) :
    (l.set i v).getD j 0 = l.getD j 0 := by
  simp [List.getD_eq_getElem?_getD, List.getElem?_set_ne hne]

lemma getD_set_self (l : List Int) (i : Nat) (v : Int) (h : i < l.length) :
    (l.set i v).getD i 0 = v := by
  simp [List.getD_eq_getElem?_getD, List.getElem?_set_self, h]

/-- Reading `setOnes` away from the written indices is reading the input. -/
lemma getD_setOnes_not_mem (h_arr : List Int) (ixs : List Nat) {q : Nat} (hq : q ∉ ixs) :
    (setOnes h_arr ixs).getD q 0 = h_arr.getD q 0 := by
  induction ixs generalizing h_arr with
  | nil => rfl
  | cons p t ih =>
    rw [List.mem_cons, not_or] at hq
    have hstep : setOnes h_arr (p :: t) = setOnes (h_arr.set p 1) t := rfl
    rw [hstep, ih _ hq.2]
    exact getD_set_of_ne _ _ _ _ (Ne.symm hq.1)

/-- A written in-range index reads back 1. -/
lemma getD_setOnes_mem (h_arr : List Int) (ixs : List Nat) {q : Nat}
    (hq : q ∈ ixs) (hlen : q < h_arr.length) :
    (setOnes h_arr ixs).getD q 0 = 1 := by
  induction ixs generalizing h_arr with
  | nil => cases hq
  | cons p t ih =>
    have hstep : setOnes h_arr (p :: t) = setOnes (h_arr.set p 1) t := rfl
    rw [hstep]
    by_cases hqt : q ∈ t
    · exact ih _ hqt (by rw [List.length_set]; exact hlen)
    · have hpq : p = q := by
        rcases List.mem_cons.mp hq with h | h
        · omega
        · exact absurd h hqt
      rw [getD_setOnes_not_mem _ _ hqt, hpq]
      exact getD_set_self _ _ _ hlen

/-- Any value read out of `setOnes` is 1 or comes from the input. -/
lemma getD_setOnes_cases (h_arr : List Int) (ixs : List Nat) (q : Nat) :
    (setOnes h_arr ixs).getD q 0 = 1 ∨ (setOnes h_arr ixs).getD q 0 = h_arr.getD q 0 := by
  by_cases hq : q ∈ ixs
  · by_cases hlen : q < h_arr.length
    · exact Or.inl (getD_setOnes_mem h_arr ixs hq hlen)
    · right
      have h1 : (setOnes h_arr ixs).getD q 0 = 0 := by
        rw [List.getD_eq_default]
        rw [length_setOnes]
        omega
      have h2 : h_arr.getD q 0 = 0 := by rw [List.getD_eq_default]; omega
      rw [h1, h2]
  · exact Or.inr (getD_setOnes_not_mem h_arr ixs hq)

/-- C4.  `flat_arr2matr(bitmap, M)` for a correspondence matrix `M` built by
`one_pixel_fragmentation` and a bitmap sized to the full fine-resolution
sphere has the shape of `M`, and cell `(r, c)` is exactly
`bitmap[M[r][c]]` — the index is in range, so the gather is the round-trip
identity. -/
theorem remap_gather_roundtrip (h_arr : List Int) (o_nside p dep r c : Nat)
    (ho : 0 < o_nside) (hp : p < 12 * o_nside * o_nside)
    (hlen : h_arr.length = nside2npix (o_nside * 2 ^ dep))
    (hr : r < (one_pixel_fragmentation o_nside p (o_nside * 2 ^ dep)).nrows)
    (hc : c < (one_pixel_fragmentation o_nside p (o_nside * 2 ^ dep)).ncols) :
    (flat_arr2matr h_arr (one_pixel_fragmentation o_nside p (o_nside * 2 ^ dep))).nrows
        = (one_pixel_fragmentation o_nside p (o_nside * 2 ^ dep)).nrows ∧
    (flat_arr2matr h_arr (one_pixel_fragmentation o_nside p (o_nside * 2 ^ dep))).ncols
        = (one_pixel_fragmentation o_nside p (o_nside * 2 ^ dep)).ncols ∧
    ∃ hb : (one_pixel_fragmentation o_nside p (o_nside * 2 ^ dep)).val r c < h_arr.length,
      (flat_arr2matr h_arr (one_pixel_fragmentation o_nside p (o_nside * 2 ^ dep))).val r c
        = h_arr.get ⟨(one_pixel_fragmentation o_nside p (o_nside * 2 ^ dep)).val r c, hb⟩ := by
  have hside : (one_pixel_fragmentation o_nside p (o_nside * 2 ^ dep)).nrows = 2 ^ dep := by
    rw [one_pixel_fragmentation_pow o_nside p dep ho]
  have hside' : (one_pixel_fragmentation o_nside p (o_nside * 2 ^ dep)).ncols = 2 ^ dep := by
    rw [one_pixel_fragmentation_pow o_nside p dep ho]
  have hb : (one_pixel_fragmentation o_nside p (o_nside * 2 ^ dep)).val r c < h_arr.length := by
    rw [hlen]
    exact frag_val_lt_npix o_nside p dep ho hp (hside ▸ hr) (hside' ▸ hc)
  refine ⟨rfl, rfl, hb, ?_⟩
  show h_arr.getD _ 0 = _
  rw [getD_of_lt h_arr hb]
  simp

/-- C4 witness: a 12-entry bitmap over the whole sphere at `nside = 1`,
gathered through the 1×1 matrix of coarse pixel 5 at depth 0. -/
theorem remap_gather_roundtrip_witness :
    (flat_arr2matr (List.replicate 12 (0:Int)) (one_pixel_fragmentation 1 5 (1 * 2 ^ 0))).nrows
        = (one_pixel_fragmentation 1 5 (1 * 2 ^ 0)).nrows ∧
    (flat_arr2matr (List.replicate 12 (0:Int)) (one_pixel_fragmentation 1 5 (1 * 2 ^ 0))).ncols
        = (one_pixel_fragmentation 1 5 (1 * 2 ^ 0)).ncols ∧
    ∃ hb : (one_pixel_fragmentation 1 5 (1 * 2 ^ 0)).val 0 0
        < (List.replicate 12 (0:Int)).length,
      (flat_arr2matr (List.replicate 12 (0:Int)) (one_pixel_fragmentation 1 5 (1 * 2 ^ 0))).val 0 0
        = (List.replicate 12 (0:Int)).get ⟨(one_pixel_fragmentation 1 5 (1 * 2 ^ 0)).val 0 0, hb⟩ :=
  remap_gather_roundtrip (List.replicate 12 0) 1 5 0 0 0 (by decide) (by decide)
    (by simp [nside2npix])
    (by rw [one_pixel_fragmentation_pow 1 5 0 (by decide)]; decide)
    (by rw [one_pixel_fragmentation_pow 1 5 0 (by decide)]; decide)

/-- numpy membership `x in arr` over the whole 2-D array. -/
def Matr.memb (M : Matr Nat) (p : Nat) : Bool :=
  (List.range M.nrows).any fun i => (List.range M.ncols).any fun j => M.val i j == p

lemma Matr.memb_iff (M : Matr Nat) (p : Nat) :
    M.memb p = true ↔ ∃ i j, i < M.nrows ∧ j < M.ncols ∧ M.val i j = p := by
  unfold Matr.memb
  simp only [List.any_eq_true, List.mem_range, beq_iff_eq]
  constructor
  · rintro ⟨i, hi, j, hj, h⟩; exact ⟨i, j, hi, hj, h⟩
  · rintro ⟨i, j, hi, hj, h⟩; exact ⟨i, hi, j, hj, h⟩

/-- The external spherical-geometry collaborators consumed by
`draw_circles`: `ang2vec` stands for the astropy frame conversion composed
with `hp.ang2vec`, `vec2pix` for `hp.vec2pix(nside, *vec, nest=True)` and
`query_disc` for `hp.query_disc(nside, vec, radians(radius), nest=True,
inclusive=True)`. -/
structure Sky (C V R : Type) where
  ang2vec : C → V
  vec2pix : Nat → V → Nat
  query_disc : Nat → V → R → List Nat

/-- The body of `draw_circles`' loop for one `(coordinate, radius)` pair:
when `centers_in_patch` is set and the centre's own pixel is not in the
target correspondence matrix the object is skipped (`continue`), otherwise
every pixel of the disc query is set to 1. -/
def circleStep {C V R : Type} (sky : Sky C V R) (nside : Nat) (M : Matr Nat)
    (centers_in_patch : Bool) (h : List Int) (cr : C × R) : List Int :=
  let vec := sky.ang2vec cr.1
  if centers_in_patch && !(M.memb (sky.vec2pix nside vec)) then h
  else setOnes h (sky.query_disc nside vec cr.2)

/-- Function `draw_circles(ras, decs, radiuses, nside, pix_matr, centers_in_patch)`.
The RA/Dec pairs are the list `coords`; `radiuses` is either a per-object
list (`Sum.inl`, the `np.ndarray` case) or a scalar (`Sum.inr`), which the
source broadcasts as `[radiuses] * len(ras)`; the scalar and list cases are
then zipped with the coordinates.  `h_arr` starts as
`np.zeros(hp.nside2npix(nside))` and the result is gathered through the
correspondence matrix by `flat_arr2matr`. -/
def draw_circles {C V R : Type} (sky : Sky C V R) (coords : List C)
    (radiuses : List R ⊕ R) (nside : Nat) (pix_matr : Matr Nat)
    (centers_in_patch : Bool) : Matr Int :=
  let rads : List R :=
    match radiuses with
    | Sum.inl l => l
    | Sum.inr r => List.replicate coords.length r
  let h_arr := (coords.zip rads).foldl (circleStep sky nside pix_matr centers_in_patch)
    (List.replicate (nside2npix nside) 0)
  flat_arr2matr h_arr pix_matr

/-- Function `draw_dots(ras, decs, nside, pix_matr)`: `h_arr[radec2pix(ras, decs,
nside)] = 1` followed by the gather.  `r2p` is the external `radec2pix`
composite (astropy frame conversion plus `hp.ang2pix`). -/
def draw_dots {C : Type} (r2p : Nat → C → Nat) (coords : List C) (nside : Nat)
    (pix_matr : Matr Nat) : Matr Int :=
  flat_arr2matr (setOnes (List.replicate (nside2npix nside) 0) (coords.map (r2p nside)))
    pix_matr

lemma draw_dots_nrows {C : Type} (r2p : Nat → C → Nat) (coords : List C) (nside : Nat)
    (pix_matr : Matr Nat) : (draw_dots r2p coords nside pix_matr).nrows = pix_matr.nrows := rfl

lemma draw_dots_ncols {C : Type} (r2p : Nat → C → Nat) (coords : List C) (nside : Nat)
    (pix_matr : Matr Nat) : (draw_dots r2p coords nside pix_matr).ncols = pix_matr.ncols := rfl

lemma circleStep_length {C V R : Type} (sky : Sky C V R) (nside : Nat) (M : Matr Nat)
    (cip : Bool) (h : List Int) (cr : C × R) :
    (circleStep sky nside M cip h cr).length = h.length := by
  simp only [circleStep]
  split
  · rfl
  · exact length_setOnes ..

lemma foldl_circleStep_length {C V R : Type} (sky : Sky C V R) (nside : Nat) (M : Matr Nat)
    (cip : Bool) : ∀ (l : List (C × R)) (h : List Int),
    (l.foldl (circleStep sky nside M cip) h).length = h.length := by
  intro l
  induction l with
  | nil => intro h; rfl
  | cons a t ih => intro h; rw [List.foldl_cons, ih, circleStep_length]

lemma circleStep_keeps_one {C V R : Type} (sky : Sky C V R) (nside : Nat) (M : Matr Nat)
    (cip : Bool) (h : List Int) (cr : C × R) {q : Nat} (hq : h.getD q 0 = 1) :
    (circleStep sky nside M cip h cr).getD q 0 = 1 := by
  simp only [circleStep]
  split
  · exact hq
  · rcases getD_setOnes_cases h (sky.query_disc nside (sky.ang2vec cr.1) cr.2) q with h1 | h1
    · exact h1
    · rw [h1, hq]

lemma foldl_circleStep_keeps_one {C V R : Type} (sky : Sky C V R) (nside : Nat) (M : Matr Nat)
    (cip : Bool) : ∀ (l : List (C × R)) (h : List Int) (q : Nat), h.getD q 0 = 1 →
    (l.foldl (circleStep sky nside M cip) h).getD q 0 = 1 := by
  intro l
  induction l with
  | nil => intro h q hq; exact hq
  | cons a t ih =>
    intro h q hq
    rw [List.foldl_cons]
    exact ih _ _ (circleStep_keeps_one sky nside M cip h a hq)

lemma circleStep_binary {C V R : Type} (sky : Sky C V R) (nside : Nat) (M : Matr Nat)
    (cip : Bool) (h : List Int) (cr : C × R) {q : Nat}
    (hq : h.getD q 0 = 0 ∨ h.getD q 0 = 1) :
    (circleStep sky nside M cip h cr).getD q 0 = 0 ∨
    (circleStep sky nside M cip h cr).getD q 0 = 1 := by
  simp only [circleStep]
  split
  · exact hq
  · rcases getD_setOnes_cases h (sky.query_disc nside (sky.ang2vec cr.1) cr.2) q with h1 | h1
    · exact Or.inr h1
    · rw [h1]; exact hq

lemma foldl_circleStep_binary {C V R : Type} (sky : Sky C V R) (nside : Nat) (M : Matr Nat)
    (cip : Bool) : ∀ (l : List (C × R)) (h : List Int) (q : Nat),
    (h.getD q 0 = 0 ∨ h.getD q 0 = 1) →
    ((l.foldl (circleStep sky nside M cip) h).getD q 0 = 0 ∨
     (l.foldl (circleStep sky nside M cip) h).getD q 0 = 1) := by
  intro l
  induction l with
  | nil => intro h q hq; exact hq
  | cons a t ih =>
    intro h q hq
    rw [List.foldl_cons]
    exact ih _ _ (circleStep_binary sky nside M cip h a hq)

lemma foldl_skip_filter {α β : Type} (P : α → Bool) (g : β → α → β)
    (hskip : ∀ b a, P a = false → g b a = b) :
    ∀ (l : List α) (b : β), l.foldl g b = (l.filter P).foldl g b := by
  intro l
  induction l with
  | nil => intro b; rfl
  | cons a t ih =>
    intro b
    rw [List.foldl_cons]
    cases hP : P a with
    | false => rw [hskip b a hP, List.filter_cons_of_neg (by simp [hP]), ih]
    | true => rw [List.filter_cons_of_pos hP, List.foldl_cons, ih]

lemma zip_map_fst_snd' {α β : Type} (l : List (α × β)) :
    (l.map Prod.fst).zip (l.map Prod.snd) = l := by
  induction l with
  | nil => rfl
  | cons a t ih => simp [ih]

lemma circleStep_skip {C V R : Type} (sky : Sky C V R) (nside : Nat) (M : Matr Nat)
    (h : List Int) (cr : C × R)
    (hmemb : M.memb (sky.vec2pix nside (sky.ang2vec cr.1)) = false) :
    circleStep sky nside M true h cr = h := by
  simp [circleStep, hmemb]

lemma circleStep_hit {C V R : Type} (sky : Sky C V R) (nside : Nat) (M : Matr Nat)
    (h : List Int) (cr : C × R)
    (hmemb : M.memb (sky.vec2pix nside (sky.ang2vec cr.1)) = true) {q : Nat}
    (hq : q ∈ sky.query_disc nside (sky.ang2vec cr.1) cr.2) (hlen : q < h.length) :
    (circleStep sky nside M true h cr).getD q 0 = 1 := by
  simp only [circleStep, hmemb]
  simp only [Bool.not_true, Bool.and_false, Bool.false_eq_true, if_false]
  exact getD_setOnes_mem h _ hq hlen

/-- C5.  With `centers_in_patch` (`exclude_outside_patch`) set: (i) the
whole rasterization equals the one computed from only the objects whose
centre pixel lies in the target correspondence matrix — an object whose
centre pixel does not appear contributes nothing, however its disc
overlaps the matrix; (ii) for an object whose centre pixel does appear,
every pixel of its full disc-query result is drawn: each matrix cell
holding such a pixel reads 1. -/
theorem draw_circles_center_filter {C V R : Type} (sky : Sky C V R) (coords : List C)
    (rads : List R) (nside : Nat) (M : Matr Nat) :
    (draw_circles sky coords (Sum.inl rads) nside M true
      = draw_circles sky
          (((coords.zip rads).filter
              (fun cr => M.memb (sky.vec2pix nside (sky.ang2vec cr.1)))).map Prod.fst)
          (Sum.inl (((coords.zip rads).filter
              (fun cr => M.memb (sky.vec2pix nside (sky.ang2vec cr.1)))).map Prod.snd))
          nside M true) ∧
    (∀ cr ∈ coords.zip rads,
      M.memb (sky.vec2pix nside (sky.ang2vec cr.1)) = true →
      ∀ q ∈ sky.query_disc nside (sky.ang2vec cr.1) cr.2, q < nside2npix nside →
      ∀ i j, M.val i j = q →
        (draw_circles sky coords (Sum.inl rads) nside M true).val i j = 1) := by
  constructor
  · simp only [draw_circles]
    rw [zip_map_fst_snd']
    rw [foldl_skip_filter (fun cr => M.memb (sky.vec2pix nside (sky.ang2vec cr.1)))
      (circleStep sky nside M true) (fun b a ha => circleStep_skip sky nside M b a ha)]
  · intro cr hcr hmemb q hq hqlen i j hij
    obtain ⟨s, t, hst⟩ := List.append_of_mem hcr
    show (List.foldl (circleStep sky nside M true) (List.replicate (nside2npix nside) 0)
        (coords.zip rads)).getD (M.val i j) 0 = 1
    rw [hij, hst, List.foldl_append, List.foldl_cons]
    apply foldl_circleStep_keeps_one
    apply circleStep_hit sky nside M _ cr hmemb hq
    rw [foldl_circleStep_length, List.length_replicate]
    exact hqlen

/-- C9.  Bitmap values are binary presence flags, not counts: every cell of
a `draw_circles` output and every cell of a `draw_dots` output is 0 or 1,
whatever the inputs — overlapping discs (or repeated dots) saturate at 1
rather than accumulate. -/
theorem bitmap_values_binary :
    (∀ {C V R : Type} (sky : Sky C V R) (coords : List C) (radiuses : List R ⊕ R)
      (nside : Nat) (M : Matr Nat) (flag : Bool) (i j : Nat),
      (draw_circles sky coords radiuses nside M flag).val i j = 0 ∨
      (draw_circles sky coords radiuses nside M flag).val i j = 1) ∧
    (∀ {C : Type} (r2p : Nat → C → Nat) (coords : List C) (nside : Nat)
      (M : Matr Nat) (i j : Nat),
      (draw_dots r2p coords nside M).val i j = 0 ∨
      (draw_dots r2p coords nside M).val i j = 1) := by
  constructor
  · intro C V R sky coords radiuses nside M flag i j
    show (List.foldl (circleStep sky nside M flag) (List.replicate (nside2npix nside) 0)
        _).getD (M.val i j) 0 = 0 ∨ _
    apply foldl_circleStep_binary
    exact Or.inl (getD_replicate _ _)
  · intro C r2p coords nside M i j
    show (setOnes (List.replicate (nside2npix nside) 0) (coords.map (r2p nside))).getD
        (M.val i j) 0 = 0 ∨ _
    rcases getD_setOnes_cases (List.replicate (nside2npix nside) 0) (coords.map (r2p nside))
        (M.val i j) with h | h
    · exact Or.inr h
    · rw [h]
      exact Or.inl (getD_replicate _ _)

/-- C10.  A scalar radius is broadcast: `draw_circles` with the scalar
equals `draw_circles` with any per-object radius list of the same length as
the coordinate list whose every entry is that scalar (the source builds
`[radiuses] * len(ras)`). -/
theorem scalar_radius_broadcast {C V R : Type} (sky : Sky C V R) (coords : List C)
    (r : R) (l : List R) (nside : Nat) (M : Matr Nat) (flag : Bool)
    (hlen : l.length = coords.length) (hall : ∀ x ∈ l, x = r) :
    draw_circles sky coords (Sum.inr r) nside M flag
      = draw_circles sky coords (Sum.inl l) nside M flag := by
  have hrepl : l = List.replicate coords.length r := List.eq_replicate_iff.mpr ⟨hlen, hall⟩
  rw [hrepl]
  rfl

/-- A trivial concrete instantiation of the external collaborators, for the
closed witnesses below. -/
def skyW : Sky Nat Nat Nat := ⟨fun c => c, fun _ v => v, fun _ v _ => [v]⟩

/-- A concrete 1×1 correspondence matrix for the closed witnesses below. -/
def MW : Matr Nat := ⟨1, 1, fun _ _ => 0⟩

/-- C10 witness: one coordinate, scalar radius 5 against the list `[5]`. -/
theorem scalar_radius_broadcast_witness :
    draw_circles skyW [0] (Sum.inr 5) 1 MW true = draw_circles skyW [0] (Sum.inl [5]) 1 MW true :=
  scalar_radius_broadcast skyW [0] 5 [5] 1 MW true (by decide) (by decide)

/-- numpy slice `M[x:x+s, y:y+s]` (with numpy's clipping at the array
boundary). -/
def subwindow {α : Type} (M : Matr α) (x y s : Nat) : Matr α :=
  ⟨min s (M.nrows - x), min s (M.ncols - y), fun i j => M.val (x + i) (y + j)⟩

/-- Result of `np.where(M == p)` read at position 0 of both coordinate arrays: the
row-major first occurrence of `p`. -/
def Matr.firstWhere (M : Matr Nat) (p : Nat) : Option (Nat × Nat) :=
  (List.range M.nrows).findSome? fun i =>
    ((List.range M.ncols).find? fun j => M.val i j == p).map fun j => (i, j)

/-- A catalog record as the aligner reads it: the precomputed coarse
(`pix2`) and fine (`pix11`) pixel columns. -/
structure SrcRec where
  pix2 : Nat
  pix11 : Nat

/-- One row of the patch table as `src_on_batch` consumes it (keys `x`,
`y`, `pix2` of `patch_line`). -/
structure PatchLine where
  x : Nat
  y : Nat
  pix2 : Nat

/-- The two filters of `src_on_batch` on one catalog: keep the records
with the patch's coarse pixel (`cat["pix2"] == patch_line["pix2"]`), then
those whose fine pixel occurs in the sliced sub-window
(`np.in1d(cur_cat["pix11"], f_matr.flatten())`). -/
def alignFiltered (patch_line : PatchLine) (sub : Matr Nat) (cat : List SrcRec) : List SrcRec :=
  (cat.filter fun r => r.pix2 == patch_line.pix2).filter fun r => sub.memb r.pix11

/-- The per-record coordinate assignment of `src_on_batch`: `np.where`'s
first occurrence; the `x`/`y` columns are initialised to 0, which is kept
when (impossibly, after the membership filter) no cell matches. -/
def alignPos (sub : Matr Nat) (r : SrcRec) : SrcRec × Nat × Nat :=
  match sub.firstWhere r.pix11 with
  | some ij => (r, ij.1, ij.2)
  | none => (r, 0, 0)

/-- Function `src_on_batch(patch_line, f_matr, cats)`: slice the correspondence
matrix to the (hardcoded) 64×64 sub-window at the patch's `(x, y)`, and for
each catalog, under its own name, keep the filtered records annotated with
their `np.where` positions. -/
def src_on_batch (patch_line : PatchLine) (f_matr : Matr Nat)
    (cats : List (String × List SrcRec)) : List (String × List (SrcRec × Nat × Nat)) :=
  let sub := subwindow f_matr patch_line.x patch_line.y 64
  cats.map fun nc => (nc.1, (alignFiltered patch_line sub nc.2).map (alignPos sub))

lemma findSome?_isSome_of_mem {α β : Type} (l : List α) (f : α → Option β) (a : α)
    (ha : a ∈ l) (hf : (f a).isSome) : ∃ b, l.findSome? f = some b := by
  induction l with
  | nil => cases ha
  | cons x t ih =>
    cases hfa : f x with
    | some b => exact ⟨b, by simp [List.findSome?_cons, hfa]⟩
    | none =>
      rcases List.mem_cons.mp ha with h | hat
      · rw [h, hfa] at hf; cases hf
      · obtain ⟨b, hb⟩ := ih hat
        exact ⟨b, by simp [List.findSome?_cons, hfa, hb]⟩

lemma firstWhere_spec (M : Matr Nat) (p : Nat) {ij : Nat × Nat}
    (h : M.firstWhere p = some ij) :
    ij.1 < M.nrows ∧ ij.2 < M.ncols ∧ M.val ij.1 ij.2 = p := by
  unfold Matr.firstWhere at h
  obtain ⟨i, hi, hfi⟩ := List.exists_of_findSome?_eq_some h
  cases hfind : (List.range M.ncols).find? fun j => M.val i j == p with
  | none => rw [hfind] at hfi; cases hfi
  | some j =>
    rw [hfind] at hfi
    simp only [Option.map_some'] at hfi
    have h1 := List.find?_some hfind
    have h2 := List.mem_of_find?_eq_some hfind
    have hij : ij = (i, j) := (Option.some.inj hfi).symm
    subst hij
    exact ⟨List.mem_range.mp hi, List.mem_range.mp h2, beq_iff_eq.mp h1⟩

lemma firstWhere_isSome (M : Matr Nat) {p : Nat} (h : M.memb p = true) :
    ∃ ij, M.firstWhere p = some ij := by
  obtain ⟨i, j, hi, hj, hv⟩ := (M.memb_iff p).mp h
  apply findSome?_isSome_of_mem _ _ i (List.mem_range.mpr hi)
  have hex : ∃ x ∈ List.range M.ncols, (M.val i x == p) = true :=
    ⟨j, List.mem_range.mpr hj, beq_iff_eq.mpr hv⟩
  have hs : (List.find? (fun j => M.val i j == p) (List.range M.ncols)).isSome :=
    List.find?_isSome.mpr hex
  cases hfind2 : List.find? (fun j => M.val i j == p) (List.range M.ncols) with
  | none => rw [hfind2] at hs; cases hs
  | some j' => rfl

lemma mem_alignFiltered (line : PatchLine) (sub : Matr Nat) (cat : List SrcRec) (r : SrcRec) :
    r ∈ alignFiltered line sub cat ↔
      r ∈ cat ∧ r.pix2 = line.pix2 ∧ sub.memb r.pix11 = true := by
  unfold alignFiltered
  simp only [List.mem_filter, beq_iff_eq]
  tauto

/-- C6.  The aligner returns, per input catalog under its own name, exactly
the records whose coarse pixel is the patch's and whose fine pixel occurs
in the 64×64 sub-window, each annotated with a position `(x, y)` at which
the sub-window holds that fine pixel; when the fine pixel occurs at a
unique position `(a, b)` of the sub-window (as it always does for a
correspondence matrix, whose entries are distinct) the annotation is
exactly `(a, b)` — e.g. a record at `sub[3][2]` receives `(x = 3, y = 2)`. -/
theorem src_on_batch_alignment (line : PatchLine) (f_matr : Matr Nat) (name : String)
    (cat : List SrcRec) :
    (∀ cats : List (String × List SrcRec),
      (src_on_batch line f_matr cats).map Prod.fst = cats.map Prod.fst) ∧
    ∃ out, src_on_batch line f_matr [(name, cat)] = [(name, out)] ∧
      (∀ e ∈ out, e.1 ∈ cat ∧ e.1.pix2 = line.pix2 ∧
        (subwindow f_matr line.x line.y 64).memb e.1.pix11 = true ∧
        e.2.1 < (subwindow f_matr line.x line.y 64).nrows ∧
        e.2.2 < (subwindow f_matr line.x line.y 64).ncols ∧
        (subwindow f_matr line.x line.y 64).val e.2.1 e.2.2 = e.1.pix11) ∧
      (∀ r ∈ cat, r.pix2 = line.pix2 →
        (subwindow f_matr line.x line.y 64).memb r.pix11 = true →
        ∃ a b, (r, a, b) ∈ out) ∧
      (∀ e ∈ out, ∀ a b, a < (subwindow f_matr line.x line.y 64).nrows →
        b < (subwindow f_matr line.x line.y 64).ncols →
        (subwindow f_matr line.x line.y 64).val a b = e.1.pix11 →
        (∀ a' b', a' < (subwindow f_matr line.x line.y 64).nrows →
          b' < (subwindow f_matr line.x line.y 64).ncols →
          (subwindow f_matr line.x line.y 64).val a' b' = e.1.pix11 → a' = a ∧ b' = b) →
        e.2.1 = a ∧ e.2.2 = b) := by
  constructor
  · intro cats
    unfold src_on_batch
    rw [List.map_map]
    rfl
  · refine ⟨(alignFiltered line (subwindow f_matr line.x line.y 64) cat).map
      (alignPos (subwindow f_matr line.x line.y 64)), rfl, ?_, ?_, ?_⟩
    · intro e he
      obtain ⟨r, hr, rfl⟩ := List.mem_map.mp he
      obtain ⟨hcat, hpix2, hmemb⟩ := (mem_alignFiltered line _ cat r).mp hr
      obtain ⟨ij, hij⟩ := firstWhere_isSome _ hmemb
      obtain ⟨hi, hj, hv⟩ := firstWhere_spec _ _ hij
      have hpos : alignPos (subwindow f_matr line.x line.y 64) r = (r, ij.1, ij.2) := by
        unfold alignPos
        rw [hij]
      rw [hpos]
      exact ⟨hcat, hpix2, hmemb, hi, hj, hv⟩
    · intro r hcat hpix2 hmemb
      have hr : r ∈ alignFiltered line (subwindow f_matr line.x line.y 64) cat :=
        (mem_alignFiltered line _ cat r).mpr ⟨hcat, hpix2, hmemb⟩
      obtain ⟨ij, hij⟩ := firstWhere_isSome _ hmemb
      refine ⟨ij.1, ij.2, ?_⟩
      have hpos : alignPos (subwindow f_matr line.x line.y 64) r = (r, ij.1, ij.2) := by
        unfold alignPos
        rw [hij]
      rw [← hpos]
      exact List.mem_map_of_mem _ hr
    · intro e he a b ha hb hv huniq
      obtain ⟨r, hr, rfl⟩ := List.mem_map.mp he
      obtain ⟨hcat, hpix2, hmemb⟩ := (mem_alignFiltered line _ cat r).mp hr
      obtain ⟨ij, hij⟩ := firstWhere_isSome _ hmemb
      obtain ⟨hi, hj, hv2⟩ := firstWhere_spec _ _ hij
      have hpos : alignPos (subwindow f_matr line.x line.y 64) r = (r, ij.1, ij.2) := by
        unfold alignPos
        rw [hij]
      rw [hpos] at huniq hv ⊢
      exact huniq ij.1 ij.2 hi hj hv2

/-- Python `range(a, b, s)` (the source only uses `range(0, 1024 - 64,
step)`). -/
def pyRange (a b s : Nat) : List Nat :=
  (List.range ((b - a + s - 1) / s)).map fun k => a + k * s

/-- One row of the generator's `all_idx` table: window origin `(x, y)`,
coarse pixel `pix2` and object count `n_src`. -/
structure Row where
  x : Nat
  y : Nat
  pix2 : Nat
  n_src : Nat
deriving DecidableEq

/-- Method `patch_pic.any()`. -/
def Matr.anyNonzero (M : Matr Int) : Bool :=
  (List.range M.nrows).any fun i => (List.range M.ncols).any fun j => !(M.val i j == 0)

/-- Count `np.count_nonzero(patch_pic)`. -/
def countNonzero (M : Matr Int) : Nat :=
  ((List.range M.nrows).flatMap fun i =>
    (List.range M.ncols).filter fun j => !(M.val i j == 0)).length

/-- The window sweep of `generate_patch_coords` for one coarse cell `i`:
`for x in range(0, 1024 - 64, step): for y in range(0, 1024 - 64, step)`
(the bounds are hardcoded in the source, whatever `nside` and `patch_size`
are), emitting `(x, y, pix2 = i, n_src)` whenever the `patch_size`-sized
slice of the rasterized image has a nonzero cell. -/
def patch_rows (pic : Matr Int) (step patch_size i : Nat) : List Row :=
  (pyRange 0 (1024 - 64) step).flatMap fun x =>
    (pyRange 0 (1024 - 64) step).filterMap fun y =>
      let patch_pic := subwindow pic x y patch_size
      if patch_pic.anyNonzero then some ⟨x, y, i, countNonzero patch_pic⟩ else none

/-- pandas `all_idx.loc[::k]` on a fresh integer range index: every `k`-th
row starting from row 0. -/
def everyKth {α : Type} (l : List α) (k : Nat) : List α :=
  match l with
  | [] => []
  | a :: t => a :: everyKth (t.drop (k - 1)) k
termination_by l.length
decreasing_by simp; omega

/-- The down-sampling tail of `generate_patch_coords`: `if n_patches is not
None and len(all_idx) > n_patches: all_idx = all_idx.loc[::len(all_idx) //
n_patches]` (then reindex). -/
def subsample (n_patches : Option Nat) (all_idx : List Row) : List Row :=
  match n_patches with
  | none => all_idx
  | some n => if n < all_idx.length then everyKth all_idx (all_idx.length / n) else all_idx

/-- Function `generate_patch_coords(cats_path, step, o_nside, nside, radius,
patch_size, n_patches, cats_subset)`.  The external catalog loading
(`cats2dict`, `pd.concat`, `cats_subset` filtering) yields the coordinate
list `coords`; `r2p` is the external `radec2pix`.  The source forces
`step = 1` when `n_patches` is given, then loops `for i in
range(hp.nside2npix(2))` — the constant 2, not `o_nside` — building each
pixel's correspondence matrix, rasterizing every object as a dot, sweeping
windows, and finally down-sampling.  (`radius` is accepted but unused by
the source.) -/
def generate_patch_coords {C : Type} (r2p : Nat → C → Nat) (coords : List C)
    (step o_nside nside patch_size : Nat) (n_patches : Option Nat) : List Row :=
  let step := if n_patches.isSome then 1 else step
  let all_idx := (List.range (nside2npix 2)).flatMap fun i =>
    patch_rows (draw_dots r2p coords nside (one_pixel_fragmentation o_nside i nside))
      step patch_size i
  subsample n_patches all_idx

lemma pyRange_mem {b s : Nat} (hs : 0 < s) (x : Nat) :
    x ∈ pyRange 0 b s ↔ ∃ k, x = k * s ∧ x < b := by
  unfold pyRange
  simp only [List.mem_map, List.mem_range, Nat.sub_zero]
  have key : ∀ k : Nat, k < (b + s - 1) / s ↔ k * s < b := by
    intro k
    rw [Nat.lt_iff_add_one_le, Nat.le_div_iff_mul_le hs]
    have h2 : (k + 1) * s = k * s + s := by ring
    omega
  constructor
  · rintro ⟨k, hk, rfl⟩
    exact ⟨k, by omega, by have := (key k).mp hk; omega⟩
  · rintro ⟨k, rfl, hx⟩
    exact ⟨k, (key k).mpr hx, by omega⟩

lemma filter_range_eq_single (n a : Nat) :
    (List.range n).filter (fun x => x == a) = if a < n then [a] else [] := by
  induction n with
  | zero => simp
  | succ m ih =>
    rw [List.range_succ, List.filter_append, ih]
    by_cases h : a < m
    · have hma : (m == a) = false := by simp; omega
      simp [List.filter_cons, hma, h, Nat.lt_succ_of_lt h]
    · by_cases h2 : m = a
      · subst h2
        simp [h, List.filter_cons]
      · have hna : ¬ a < m + 1 := by omega
        have hma : (m == a) = false := by simp [h2]
        simp [List.filter_cons, h, hma, hna]

lemma filter_range_lt (n m : Nat) (h : m ≤ n) :
    (List.range n).filter (fun x => decide (x < m)) = List.range m := by
  induction n with
  | zero =>
    have : m = 0 := by omega
    subst this
    rfl
  | succ j ih =>
    rcases Nat.lt_or_ge j m with hc | hc
    · have hm : m = j + 1 := by omega
      subst hm
      apply List.filter_eq_self.mpr
      intro a ha
      simp only [List.mem_range] at ha
      simpa using ha
    · rw [List.range_succ, List.filter_append, ih hc]
      have : (decide (j < m)) = false := by simp; omega
      simp [this]

lemma flatMap_range_single {α : Type} (n a : Nat) (f : Nat → List α)
    (hf : ∀ i, i < n → i ≠ a → f i = []) :
    (List.range n).flatMap f = if a < n then f a else [] := by
  induction n with
  | zero => simp
  | succ m ih =>
    rw [List.range_succ, List.flatMap_append,
      ih (fun i hi hia => hf i (Nat.lt_succ_of_lt hi) hia)]
    by_cases h : a < m
    · have hm : f m = [] := hf m (Nat.lt_succ_self m) (by omega)
      simp [h, Nat.lt_succ_of_lt h, hm]
    · by_cases h2 : m = a
      · subst h2
        simp [h]
      · have hm : f m = [] := hf m (Nat.lt_succ_self m) h2
        simp [h, hm, show ¬ a < m + 1 by omega]

lemma flatMap_eq_nil_of {α β : Type} (l : List α) (f : α → List β)
    (h : ∀ a ∈ l, f a = []) : l.flatMap f = [] := by
  induction l with
  | nil => rfl
  | cons a t ih =>
    rw [List.flatMap_cons, h a (List.mem_cons_self a t), List.nil_append]
    exact ih fun b hb => h b (List.mem_cons_of_mem a hb)

lemma filterMap_eq_nil_of {α β : Type} (l : List α) (f : α → Option β)
    (h : ∀ a ∈ l, f a = none) : l.filterMap f = [] := by
  induction l with
  | nil => rfl
  | cons a t ih =>
    rw [List.filterMap_cons, h a (List.mem_cons_self a t)]
    exact ih fun b hb => h b (List.mem_cons_of_mem a hb)

lemma filterMap_if {α β : Type} (l : List α) (P : α → Bool) (f : α → β) :
    l.filterMap (fun y => if P y then some (f y) else none) = (l.filter P).map f := by
  induction l with
  | nil => rfl
  | cons a t ih =>
    rw [List.filterMap_cons, List.filter_cons]
    by_cases h : P a
    · rw [if_pos h, if_pos h, List.map_cons, ih]
    · rw [if_neg h, if_neg h, ih]

lemma flatMap_filter_of_nil {α β : Type} (P : α → Bool) (G H : α → List β) (l : List α)
    (h1 : ∀ x ∈ l, P x = false → G x = []) (h2 : ∀ x ∈ l, P x = true → G x = H x) :
    l.flatMap G = (l.filter P).flatMap H := by
  induction l with
  | nil => rfl
  | cons a t ih =>
    rw [List.flatMap_cons, List.filter_cons]
    have iht := ih (fun x hx => h1 x (List.mem_cons_of_mem a hx))
      (fun x hx => h2 x (List.mem_cons_of_mem a hx))
    by_cases h : P a
    · rw [if_pos h, List.flatMap_cons, iht, h2 a (List.mem_cons_self a t) h]
    · rw [if_neg h, h1 a (List.mem_cons_self a t) (by simp [h]), List.nil_append, iht]

lemma dots_single_val (npix q : Nat) (M : Matr Nat) (hq : q < npix) (r c : Nat) :
    (flat_arr2matr (setOnes (List.replicate npix 0) [q]) M).val r c
      = if M.val r c = q then 1 else 0 := by
  show ((List.replicate npix (0:Int)).set q 1).getD (M.val r c) 0 = _
  by_cases h : M.val r c = q
  · rw [if_pos h, h]
    exact getD_set_self _ _ _ (by simpa using hq)
  · rw [if_neg h, getD_set_of_ne _ _ _ _ (fun hh => h hh.symm), getD_replicate]

/-- A single dot at fine pixel `v`: the rasterized image of matrix `M` is
the indicator of the cells of `M` holding `v`. -/
lemma draw_dots_single (v nside : Nat) (M : Matr Nat) (hv : v < nside2npix nside) (r c : Nat) :
    (draw_dots (fun _ q => q) [v] nside M).val r c = if M.val r c = v then 1 else 0 :=
  dots_single_val (nside2npix nside) v M hv r c

/-- For the coarse pixel owning the dot, the image has exactly the one
nonzero cell at the dot's matrix position. -/
lemma dots_pic_same (o P dep r0 c0 : Nat) (ho : 0 < o) (hP : P < 12 * o * o)
    (hr0 : r0 < 2 ^ dep) (hc0 : c0 < 2 ^ dep) : ∀ r c, r < 2 ^ dep → c < 2 ^ dep →
    ((draw_dots (fun _ q => q) [(one_pixel_fragmentation o P (o * 2 ^ dep)).val r0 c0]
        (o * 2 ^ dep) (one_pixel_fragmentation o P (o * 2 ^ dep))).val r c ≠ 0
      ↔ (r = r0 ∧ c = c0)) := by
  intro r c hr hc
  rw [draw_dots_single _ _ _ (frag_val_lt_npix o P dep ho hP hr0 hc0)]
  constructor
  · intro hne
    by_cases h : (one_pixel_fragmentation o P (o * 2 ^ dep)).val r c
        = (one_pixel_fragmentation o P (o * 2 ^ dep)).val r0 c0
    · exact frag_inj o P dep ho hr hc hr0 hc0 h
    · rw [if_neg h] at hne
      exact absurd rfl hne
  · rintro ⟨rfl, rfl⟩
    simp

/-- For any other coarse pixel, the image is identically zero: the values
of different coarse pixels' correspondence matrices live in disjoint
intervals. -/
lemma dots_pic_other (o P i dep r0 c0 : Nat) (ho : 0 < o) (hP : P < 12 * o * o)
    (hne : i ≠ P) (hr0 : r0 < 2 ^ dep) (hc0 : c0 < 2 ^ dep) :
    ∀ r c, r < 2 ^ dep → c < 2 ^ dep →
    (draw_dots (fun _ q => q) [(one_pixel_fragmentation o P (o * 2 ^ dep)).val r0 c0]
        (o * 2 ^ dep) (one_pixel_fragmentation o i (o * 2 ^ dep))).val r c = 0 := by
  intro r c hr hc
  rw [draw_dots_single _ _ _ (frag_val_lt_npix o P dep ho hP hr0 hc0)]
  have hvi := frag_val_range o i dep ho hr hc
  have hvP := frag_val_range o P dep ho hr0 hc0
  rw [if_neg]
  intro h
  rw [h] at hvi
  rcases Nat.lt_or_ge i P with hiP | hiP
  · have : (i + 1) * 4 ^ dep ≤ P * 4 ^ dep := Nat.mul_le_mul_right _ (by omega)
    have he : (i + 1) * 4 ^ dep = i * 4 ^ dep + 4 ^ dep := by ring
    omega
  · have hPi : P < i := by omega
    have : (P + 1) * 4 ^ dep ≤ i * 4 ^ dep := Nat.mul_le_mul_right _ (by omega)
    have he : (P + 1) * 4 ^ dep = P * 4 ^ dep + 4 ^ dep := by ring
    omega

lemma subwindow_any_iff (pic : Matr Int) (x y ps : Nat) :
    (subwindow pic x y ps).anyNonzero = true ↔
    ∃ i j, i < min ps (pic.nrows - x) ∧ j < min ps (pic.ncols - y) ∧
      pic.val (x + i) (y + j) ≠ 0 := by
  unfold Matr.anyNonzero subwindow
  simp only [List.any_eq_true, List.mem_range, Bool.not_eq_true', beq_eq_false_iff_ne]
  constructor
  · rintro ⟨i, hi, j, hj, h⟩; exact ⟨i, j, hi, hj, h⟩
  · rintro ⟨i, j, hi, hj, h⟩; exact ⟨i, hi, j, hj, h⟩

/-- For an image with a single nonzero cell `(r0, c0)`, a window slice has
a nonzero cell exactly when the window contains `(r0, c0)`. -/
lemma subwindow_single_any (pic : Matr Int) (r0 c0 x y ps : Nat)
    (hpic : ∀ r c, r < pic.nrows → c < pic.ncols → (pic.val r c ≠ 0 ↔ r = r0 ∧ c = c0))
    (hr0 : r0 < pic.nrows) (hc0 : c0 < pic.ncols) :
    ((subwindow pic x y ps).anyNonzero = true ↔
      (x ≤ r0 ∧ r0 < x + ps ∧ y ≤ c0 ∧ c0 < y + ps)) := by
  rw [subwindow_any_iff]
  constructor
  · rintro ⟨i, j, hi, hj, h⟩
    have hxi : x + i < pic.nrows := by omega
    have hyj : y + j < pic.ncols := by omega
    obtain ⟨h1, h2⟩ := (hpic (x + i) (y + j) hxi hyj).mp h
    omega
  · rintro ⟨h1, h2, h3, h4⟩
    refine ⟨r0 - x, c0 - y, by omega, by omega, ?_⟩
    have e1 : x + (r0 - x) = r0 := by omega
    have e2 : y + (c0 - y) = c0 := by omega
    rw [e1, e2]
    exact (hpic r0 c0 hr0 hc0).mpr ⟨rfl, rfl⟩

/-- And when it does, the window's nonzero count is exactly 1. -/
lemma subwindow_single_count (pic : Matr Int) (r0 c0 x y ps : Nat)
    (hpic : ∀ r c, r < pic.nrows → c < pic.ncols → (pic.val r c ≠ 0 ↔ r = r0 ∧ c = c0))
    (h1 : x ≤ r0) (h2 : r0 < x + ps) (h3 : y ≤ c0) (h4 : c0 < y + ps)
    (hr0 : r0 < pic.nrows) (hc0 : c0 < pic.ncols) :
    countNonzero (subwindow pic x y ps) = 1 := by
  unfold countNonzero
  have hval : ∀ i j, (subwindow pic x y ps).val i j = pic.val (x + i) (y + j) := fun i j => rfl
  have hnr : (subwindow pic x y ps).nrows = min ps (pic.nrows - x) := rfl
  have hnc : (subwindow pic x y ps).ncols = min ps (pic.ncols - y) := rfl
  rw [hnr, hnc]
  have hinner : ∀ i, i < min ps (pic.nrows - x) → i ≠ r0 - x →
      ((List.range (min ps (pic.ncols - y))).filter
        fun j => !((subwindow pic x y ps).val i j == 0)) = [] := by
    intro i hi hne
    apply List.filter_eq_nil_iff.mpr
    intro j hj
    rw [List.mem_range] at hj
    rw [hval]
    simp only [Bool.not_eq_true', beq_eq_false_iff_ne, ne_eq, Decidable.not_not]
    by_contra hnz
    obtain ⟨e1, _⟩ := (hpic (x + i) (y + j) (by omega) (by omega)).mp hnz
    omega
  rw [flatMap_range_single _ (r0 - x) _ hinner, if_pos (by omega)]
  have hcongr : ∀ j ∈ List.range (min ps (pic.ncols - y)),
      (!((subwindow pic x y ps).val (r0 - x) j == 0)) = (j == c0 - y) := by
    intro j hj
    rw [List.mem_range] at hj
    rw [hval]
    have e1 : x + (r0 - x) = r0 := by omega
    rw [e1]
    rcases Nat.decEq j (c0 - y) with hje | hje
    · have : y + j ≠ c0 := by omega
      have hz : pic.val r0 (y + j) = 0 := by
        by_contra hnz
        obtain ⟨_, e2⟩ := (hpic r0 (y + j) hr0 (by omega)).mp hnz
        omega
      simp [hz, hje]
    · subst hje
      have e2 : y + (c0 - y) = c0 := by omega
      rw [e2]
      have hnz : pic.val r0 c0 ≠ 0 := (hpic r0 c0 hr0 hc0).mpr ⟨rfl, rfl⟩
      simp [hnz]
  rw [List.filter_congr hcongr, filter_range_eq_single, if_pos (by omega)]
  rfl

lemma subwindow_zero_any (pic : Matr Int) (x y ps : Nat)
    (hpic : ∀ r c, r < pic.nrows → c < pic.ncols → pic.val r c = 0) :
    (subwindow pic x y ps).anyNonzero = false := by
  rcases hb : (subwindow pic x y ps).anyNonzero with _ | _
  · rfl
  · exfalso
    obtain ⟨i, j, hi, hj, hne⟩ := (subwindow_any_iff pic x y ps).mp hb
    exact hne (hpic (x + i) (y + j) (by omega) (by omega))

/-- Sweeping an identically-zero image emits no row. -/
lemma patch_rows_zero (pic : Matr Int) (step ps i : Nat)
    (hpic : ∀ r c, r < pic.nrows → c < pic.ncols → pic.val r c = 0) :
    patch_rows pic step ps i = [] := by
  unfold patch_rows
  apply flatMap_eq_nil_of
  intro x _
  apply filterMap_eq_nil_of
  intro y _
  simp [subwindow_zero_any pic x y ps hpic]

/-- Sweeping an image with the single nonzero cell `(r0, c0)`: the emitted
rows are exactly the window origins containing the dot, each with count 1. -/
lemma patch_rows_single (pic : Matr Int) (r0 c0 step i : Nat)
    (hnr : pic.nrows = 1024) (hnc : pic.ncols = 1024)
    (hr0 : r0 < 1024) (hc0 : c0 < 1024)
    (hpic : ∀ r c, r < pic.nrows → c < pic.ncols → (pic.val r c ≠ 0 ↔ r = r0 ∧ c = c0)) :
    patch_rows pic step 64 i
      = ((pyRange 0 (1024 - 64) step).filter fun x => decide (x ≤ r0 ∧ r0 < x + 64)).flatMap
          fun x =>
            ((pyRange 0 (1024 - 64) step).filter fun y => decide (y ≤ c0 ∧ c0 < y + 64)).map
              fun y => Row.mk x y i 1 := by
  have hr0' : r0 < pic.nrows := by omega
  have hc0' : c0 < pic.ncols := by omega
  unfold patch_rows
  apply flatMap_filter_of_nil
  · intro x _ hPx
    apply filterMap_eq_nil_of
    intro y _
    have hany : (subwindow pic x y 64).anyNonzero = false := by
      rcases hb : (subwindow pic x y 64).anyNonzero with _ | _
      · rfl
      · obtain ⟨e1, e2, _, _⟩ := (subwindow_single_any pic r0 c0 x y 64 hpic hr0' hc0').mp hb
        simp only [decide_eq_false_iff_not] at hPx
        exact absurd ⟨e1, e2⟩ hPx
    simp [hany]
  · intro x _ hPx
    simp only [decide_eq_true_eq] at hPx
    rw [show ((pyRange 0 (1024 - 64) step).filterMap fun y =>
        let patch_pic := subwindow pic x y 64
        if patch_pic.anyNonzero then some (Row.mk x y i (countNonzero patch_pic)) else none)
      = (pyRange 0 (1024 - 64) step).filterMap fun y =>
        if decide (y ≤ c0 ∧ c0 < y + 64) then some (Row.mk x y i 1) else none from ?_]
    · exact filterMap_if _ _ _
    · apply List.filterMap_congr
      intro y _
      by_cases hQy : y ≤ c0 ∧ c0 < y + 64
      · have hany : (subwindow pic x y 64).anyNonzero = true :=
          (subwindow_single_any pic r0 c0 x y 64 hpic hr0' hc0').mpr
            ⟨hPx.1, hPx.2, hQy.1, hQy.2⟩
        have hcount : countNonzero (subwindow pic x y 64) = 1 :=
          subwindow_single_count pic r0 c0 x y 64 hpic hPx.1 hPx.2 hQy.1 hQy.2 hr0' hc0'
        simp [hany, hcount, hQy]
      · have hany : (subwindow pic x y 64).anyNonzero = false := by
          rcases hb : (subwindow pic x y 64).anyNonzero with _ | _
          · rfl
          · obtain ⟨_, _, e3, e4⟩ :=
              (subwindow_single_any pic r0 c0 x y 64 hpic hr0' hc0').mp hb
            exact absurd ⟨e3, e4⟩ hQy
        simp [hany, hQy]

lemma generate_none_eq {C : Type} (r2p : Nat → C → Nat) (coords : List C)
    (step o_nside nside patch_size : Nat) :
    generate_patch_coords r2p coords step o_nside nside patch_size none
      = (List.range (nside2npix 2)).flatMap fun i =>
          patch_rows (draw_dots r2p coords nside (one_pixel_fragmentation o_nside i nside))
            step patch_size i := rfl

lemma generate_some_eq {C : Type} (r2p : Nat → C → Nat) (coords : List C)
    (step o_nside nside patch_size k : Nat) :
    generate_patch_coords r2p coords step o_nside nside patch_size (some k)
      = subsample (some k) (generate_patch_coords r2p coords 1 o_nside nside patch_size none) :=
  rfl

/-- The generator on a sky holding exactly one object, at the fine pixel in
cell `(r0, c0)` of coarse pixel `P`'s correspondence matrix (`o_nside = o`,
`nside = o * 2^10`, `patch_size = 64`): rows appear only if `P < 48`, and
then exactly at the swept window origins containing `(r0, c0)`. -/
lemma all_rows_single_dot (o P r0 c0 step : Nat) (ho : 0 < o) (hP : P < 12 * o * o)
    (hr0 : r0 < 1024) (hc0 : c0 < 1024) :
    generate_patch_coords (fun _ q => q)
        [(one_pixel_fragmentation o P (o * 2 ^ 10)).val r0 c0] step o (o * 2 ^ 10) 64 none
      = if P < nside2npix 2 then
          ((pyRange 0 (1024 - 64) step).filter fun x => decide (x ≤ r0 ∧ r0 < x + 64)).flatMap
            fun x =>
              ((pyRange 0 (1024 - 64) step).filter fun y => decide (y ≤ c0 ∧ c0 < y + 64)).map
                fun y => Row.mk x y P 1
        else [] := by
  have h2to10 : (2:Nat) ^ 10 = 1024 := by norm_num
  have hfr : ∀ i, (one_pixel_fragmentation o i (o * 2 ^ 10)).nrows = 1024 := by
    intro i
    rw [one_pixel_fragmentation_pow o i 10 ho]
    norm_num
  have hfc : ∀ i, (one_pixel_fragmentation o i (o * 2 ^ 10)).ncols = 1024 := by
    intro i
    rw [one_pixel_fragmentation_pow o i 10 ho]
    norm_num
  rw [generate_none_eq]
  rw [flatMap_range_single _ P _ ?hother]
  case hother =>
    intro i _ hiP
    apply patch_rows_zero
    intro r c hr hc
    have hr' : r < 2 ^ 10 := by
      have := hfr i
      simp only [draw_dots, flat_arr2matr] at hr
      omega
    have hc' : c < 2 ^ 10 := by
      have := hfc i
      simp only [draw_dots, flat_arr2matr] at hc
      omega
    exact dots_pic_other o P i 10 r0 c0 ho hP hiP (by omega) (by omega) r c hr' hc'
  by_cases hP48 : P < nside2npix 2
  · rw [if_pos hP48, if_pos hP48]
    apply patch_rows_single _ r0 c0 step P (hfr P) (hfc P) hr0 hc0
    intro r c hr hc
    have hr' : r < 2 ^ 10 := by
      have := hfr P
      simp only [draw_dots, flat_arr2matr] at hr
      omega
    have hc' : c < 2 ^ 10 := by
      have := hfc P
      simp only [draw_dots, flat_arr2matr] at hc
      omega
    exact dots_pic_same o P 10 r0 c0 ho hP (by omega) (by omega) r c hr' hc'
  · rw [if_neg hP48, if_neg hP48]

lemma pyRange_filter_hit (r0 : Nat) (hr0 : r0 < 960) :
    ((pyRange 0 (1024 - 64) 64).filter fun x => decide (x ≤ r0 ∧ r0 < x + 64))
      = [64 * (r0 / 64)] := by
  have hpy : pyRange 0 (1024 - 64) 64 = (List.range 15).map fun k => 0 + k * 64 := rfl
  rw [hpy, List.filter_map]
  have hcongr : ∀ k ∈ List.range 15,
      ((fun x => decide (x ≤ r0 ∧ r0 < x + 64)) ∘ (fun k => 0 + k * 64)) k
        = (k == r0 / 64) := by
    intro k _
    apply Bool.eq_iff_iff.mpr
    simp only [Function.comp_apply, decide_eq_true_eq, beq_iff_eq]
    omega
  rw [List.filter_congr hcongr, filter_range_eq_single, if_pos (by omega)]
  have he : 0 + r0 / 64 * 64 = 64 * (r0 / 64) := by ring
  simp [he, Nat.mul_comm]

lemma everyKth_sublist_aux {α : Type} (k : Nat) :
    ∀ (n : Nat) (l : List α), l.length ≤ n → List.Sublist (everyKth l k) l := by
  intro n
  induction n with
  | zero =>
    intro l hl
    have hnil : l = [] := List.eq_nil_of_length_eq_zero (by omega)
    subst hnil
    rw [everyKth]
  | succ m ih =>
    intro l hl
    cases l with
    | nil => rw [everyKth]
    | cons a t =>
      rw [everyKth]
      apply List.Sublist.cons₂ a
      exact List.Sublist.trans
        (ih (t.drop (k - 1)) (by simp at hl ⊢; omega))
        (List.drop_sublist ..)

lemma everyKth_sublist {α : Type} (l : List α) (k : Nat) :
    List.Sublist (everyKth l k) l :=
  everyKth_sublist_aux k l.length l le_rfl

lemma everyKth_length_aux {α : Type} (k : Nat) (hk : 0 < k) :
    ∀ (n : Nat) (l : List α), l.length ≤ n →
      (everyKth l k).length = (l.length + k - 1) / k := by
  intro n
  induction n with
  | zero =>
    intro l hl
    have hnil : l = [] := List.eq_nil_of_length_eq_zero (by omega)
    subst hnil
    rw [everyKth]
    simp [Nat.div_eq_of_lt (show k - 1 < k by omega)]
  | succ m ih =>
    intro l hl
    cases l with
    | nil =>
      rw [everyKth]
      simp [Nat.div_eq_of_lt (show k - 1 < k by omega)]
    | cons a t =>
      rw [everyKth]
      rw [List.length_cons, ih (t.drop (k - 1)) (by simp at hl ⊢; omega)]
      rw [List.length_drop]
      rcases Nat.lt_or_ge t.length (k - 1) with hcase | hcase
      · have e1 : t.length - (k - 1) = 0 := by omega
        rw [e1]
        have e2 : (0 + k - 1) / k = 0 := Nat.div_eq_of_lt (by omega)
        have e3 : t.length + 1 + k - 1 = t.length + k := by omega
        rw [e2]
        simp only [List.length_cons]
        rw [e3, Nat.add_div_right _ hk, Nat.div_eq_of_lt (by omega)]
      · have e1 : t.length - (k - 1) + k - 1 = t.length := by omega
        have e3 : t.length + 1 + k - 1 = t.length + k := by omega
        rw [e1]
        simp only [List.length_cons]
        rw [e3, Nat.add_div_right _ hk]

lemma everyKth_length {α : Type} (l : List α) (k : Nat) (hk : 0 < k) :
    (everyKth l k).length = (l.length + k - 1) / k :=
  everyKth_length_aux k hk l.length l le_rfl

/-- C3 (code bug).  The generator's outer loop is `for i in
range(hp.nside2npix(2))` — the literal 2, not the `o_nside` parameter.
With `o_nside = 4` (192 coarse pixels) and one object inside coarse pixel
100 (a valid pixel, and its matrix's window at the scanned origin `(0, 0)`
does contain a nonzero cell), the sweep emits nothing at all: pixel 100 is
never visited. -/
theorem generate_ignores_o_nside_param :
    100 < 12 * 4 * 4 ∧
    0 ∈ pyRange 0 (1024 - 64) 20 ∧
    (subwindow (draw_dots (fun _ q => q)
        [(one_pixel_fragmentation 4 100 (4 * 2 ^ 10)).val 0 0] (4 * 2 ^ 10)
        (one_pixel_fragmentation 4 100 (4 * 2 ^ 10))) 0 0 64).anyNonzero = true ∧
    generate_patch_coords (fun _ q => q)
        [(one_pixel_fragmentation 4 100 (4 * 2 ^ 10)).val 0 0] 20 4 (4 * 2 ^ 10) 64 none
      = [] := by
  refine ⟨by norm_num, by decide, ?_, ?_⟩
  · have hnr : (draw_dots (fun _ q => q)
        [(one_pixel_fragmentation 4 100 (4 * 2 ^ 10)).val 0 0] (4 * 2 ^ 10)
        (one_pixel_fragmentation 4 100 (4 * 2 ^ 10))).nrows = 1024 := by
      rw [draw_dots_nrows, one_pixel_fragmentation_pow 4 100 10 (by norm_num)]
      norm_num
    have hnc : (draw_dots (fun _ q => q)
        [(one_pixel_fragmentation 4 100 (4 * 2 ^ 10)).val 0 0] (4 * 2 ^ 10)
        (one_pixel_fragmentation 4 100 (4 * 2 ^ 10))).ncols = 1024 := by
      rw [draw_dots_ncols, one_pixel_fragmentation_pow 4 100 10 (by norm_num)]
      norm_num
    apply (subwindow_single_any _ 0 0 0 0 64 ?_ (by omega) (by omega)).mpr
    · exact ⟨by omega, by omega, by omega, by omega⟩
    · intro r c hr hc
      exact dots_pic_same 4 100 10 0 0 (by norm_num) (by norm_num) (by norm_num)
        (by norm_num) r c (by omega) (by omega)
  · rw [all_rows_single_dot 4 100 0 0 20 (by norm_num) (by norm_num) (by norm_num)
      (by norm_num)]
    rw [if_neg (by norm_num [nside2npix])]

/-- C7 counterexample.  `step = patch_size = 64`, one object on the whole
sky, its fine pixel `(one_pixel_fragmentation 2 0 2048).val 960 0` valid
and sitting at matrix position `(960, 0)` — the window at origin 960 would
fit exactly (`960 + 64 ≤ 1024`), yet `range(0, 1024 - 64, 64)` stops at
896, so the generator emits no row at all instead of exactly one. -/
theorem generate_misses_last_band_cex :
    generate_patch_coords (fun _ q => q)
        [(one_pixel_fragmentation 2 0 (2 * 2 ^ 10)).val 960 0] 64 2 (2 * 2 ^ 10) 64 none
      = [] ∧
    (one_pixel_fragmentation 2 0 (2 * 2 ^ 10)).val 960 0 < nside2npix (2 * 2 ^ 10) ∧
    (960:Nat) + 64 ≤ 1024 := by
  refine ⟨?_, ?_, by norm_num⟩
  · rw [all_rows_single_dot 2 0 960 0 64 (by norm_num) (by norm_num) (by norm_num)
      (by norm_num)]
    rw [if_pos (by norm_num [nside2npix])]
    have hx : ((pyRange 0 (1024 - 64) 64).filter fun x => decide (x ≤ 960 ∧ 960 < x + 64))
        = [] := by decide
    rw [hx]
    rfl
  · exact frag_val_lt_npix 2 0 10 (by norm_num) (by norm_num) (by norm_num) (by norm_num)

/-- C7 amended.  With `step = patch_size = 64` and exactly one object on
the sky, at matrix cell `(r0, c0)` of coarse pixel `p` with `r0, c0` inside
the scanned region `[0, 1024 - 64)` (the hardcoded `range(0, 1024 - 64,
step)` never reaches the last 64-wide band, even though a window there
would fit), the generator emits exactly one row, whose window contains the
object's position; windows never exceed the 1024-wide image. -/
theorem generate_single_object_one_patch (p r0 c0 : Nat) (hp : p < 48)
    (hr0 : r0 < 1024 - 64) (hc0 : c0 < 1024 - 64) :
    generate_patch_coords (fun _ q => q)
        [(one_pixel_fragmentation 2 p (2 * 2 ^ 10)).val r0 c0] 64 2 (2 * 2 ^ 10) 64 none
      = [Row.mk (64 * (r0 / 64)) (64 * (c0 / 64)) p 1] ∧
    64 * (r0 / 64) ≤ r0 ∧ r0 < 64 * (r0 / 64) + 64 ∧
    64 * (c0 / 64) ≤ c0 ∧ c0 < 64 * (c0 / 64) + 64 ∧
    64 * (r0 / 64) + 64 ≤ 1024 ∧ 64 * (c0 / 64) + 64 ≤ 1024 := by
  refine ⟨?_, by omega, by omega, by omega, by omega, by omega, by omega⟩
  rw [all_rows_single_dot 2 p r0 c0 64 (by norm_num) (by omega) (by omega) (by omega)]
  rw [if_pos (by simpa [nside2npix] using hp)]
  rw [pyRange_filter_hit r0 (by omega), pyRange_filter_hit c0 (by omega)]
  rfl

/-- C7 amended witness at `p = 0`, `(r0, c0) = (0, 0)`. -/
theorem generate_single_object_one_patch_witness :
    generate_patch_coords (fun _ q => q)
        [(one_pixel_fragmentation 2 0 (2 * 2 ^ 10)).val 0 0] 64 2 (2 * 2 ^ 10) 64 none
      = [Row.mk (64 * (0 / 64)) (64 * (0 / 64)) 0 1] ∧
    64 * (0 / 64) ≤ 0 ∧ 0 < 64 * (0 / 64) + 64 ∧
    64 * (0 / 64) ≤ 0 ∧ 0 < 64 * (0 / 64) + 64 ∧
    64 * (0 / 64) + 64 ≤ 1024 ∧ 64 * (0 / 64) + 64 ≤ 1024 :=
  generate_single_object_one_patch 0 0 0 (by decide) (by decide) (by decide)

lemma subsample_some (k : Nat) (l : List Row) :
    subsample (some k) l = if k < l.length then everyKth l (l.length / k) else l := rfl

lemma subsample_sublist (n_patches : Option Nat) (l : List Row) :
    List.Sublist (subsample n_patches l) l := by
  cases n_patches with
  | none => exact List.Sublist.refl l
  | some k =>
    rw [subsample_some]
    split
    · exact everyKth_sublist ..
    · exact List.Sublist.refl l

lemma subsample_some_length (k : Nat) (l : List Row) (h1 : k < l.length) (h2 : 0 < k) :
    (subsample (some k) l).length = (l.length + l.length / k - 1) / (l.length / k) := by
  rw [subsample_some, if_pos h1]
  exact everyKth_length _ _ ((Nat.one_le_div_iff h2).mpr (by omega))

/-- C8 amended.  When `target_count` (`n_patches`) is given the generator
forces `step = 1`, sweeps the full table and then takes every
`floor(total / k)`-th row, so the result is a subsequence of the `step = 1`
full result in scan order; but its length is `ceil(total / floor(total /
k))`, which is approximately `k` and can exceed `k`. -/
theorem generate_target_count_subsample {C : Type} (r2p : Nat → C → Nat) (coords : List C)
    (step o_nside nside patch_size k : Nat) :
    generate_patch_coords r2p coords step o_nside nside patch_size (some k)
      = subsample (some k)
          (generate_patch_coords r2p coords 1 o_nside nside patch_size none) ∧
    List.Sublist
      (generate_patch_coords r2p coords step o_nside nside patch_size (some k))
      (generate_patch_coords r2p coords 1 o_nside nside patch_size none) ∧
    (k < (generate_patch_coords r2p coords 1 o_nside nside patch_size none).length → 0 < k →
      (generate_patch_coords r2p coords step o_nside nside patch_size (some k)).length
        = ((generate_patch_coords r2p coords 1 o_nside nside patch_size none).length
            + (generate_patch_coords r2p coords 1 o_nside nside patch_size none).length / k
            - 1)
          / ((generate_patch_coords r2p coords 1 o_nside nside patch_size none).length / k)) := by
  refine ⟨generate_some_eq r2p coords step o_nside nside patch_size k, ?_, ?_⟩
  · rw [generate_some_eq]
    exact subsample_sublist _ _
  · intro h1 h2
    rw [generate_some_eq]
    exact subsample_some_length _ _ h1 h2

set_option maxRecDepth 8192 in
/-- C8 counterexample.  One object at matrix cell `(0, 4)` of coarse pixel
0 gives a `step = 1` full table of 5 rows; `n_patches = 2` then keeps rows
`0, 2, 4` (`5 // 2 = 2`), i.e. 3 rows — more than the requested 2. -/
theorem generate_target_count_exceeds_cex :
    (generate_patch_coords (fun _ q => q)
        [(one_pixel_fragmentation 2 0 (2 * 2 ^ 10)).val 0 4] 20 2 (2 * 2 ^ 10) 64
        (some 2)).length = 3 ∧
    (generate_patch_coords (fun _ q => q)
        [(one_pixel_fragmentation 2 0 (2 * 2 ^ 10)).val 0 4] 1 2 (2 * 2 ^ 10) 64
        none).length = 5 := by
  have hfull : generate_patch_coords (fun _ q => q)
      [(one_pixel_fragmentation 2 0 (2 * 2 ^ 10)).val 0 4] 1 2 (2 * 2 ^ 10) 64 none
      = [Row.mk 0 0 0 1, Row.mk 0 1 0 1, Row.mk 0 2 0 1, Row.mk 0 3 0 1, Row.mk 0 4 0 1] := by
    rw [all_rows_single_dot 2 0 0 4 1 (by norm_num) (by norm_num) (by norm_num) (by norm_num)]
    rw [if_pos (by norm_num [nside2npix])]
    have hpy : pyRange 0 (1024 - 64) 1 = (List.range 960).map fun k => 0 + k * 1 := rfl
    have hx : ((pyRange 0 (1024 - 64) 1).filter fun x => decide (x ≤ 0 ∧ 0 < x + 64))
        = [0] := by
      rw [hpy, List.filter_map]
      have hcongr : ∀ k ∈ List.range 960,
          ((fun x => decide (x ≤ 0 ∧ 0 < x + 64)) ∘ (fun k => 0 + k * 1)) k = (k == 0) := by
        intro k _
        apply Bool.eq_iff_iff.mpr
        simp only [Function.comp_apply, decide_eq_true_eq, beq_iff_eq]
        omega
      rw [List.filter_congr hcongr, filter_range_eq_single, if_pos (by norm_num)]
      rfl
    have hy : ((pyRange 0 (1024 - 64) 1).filter fun y => decide (y ≤ 4 ∧ 4 < y + 64))
        = [0, 1, 2, 3, 4] := by
      rw [hpy, List.filter_map]
      have hcongr : ∀ k ∈ List.range 960,
          ((fun y => decide (y ≤ 4 ∧ 4 < y + 64)) ∘ (fun k => 0 + k * 1)) k
            = decide (k < 5) := by
        intro k _
        apply Bool.eq_iff_iff.mpr
        simp only [Function.comp_apply, decide_eq_true_eq]
        omega
      rw [List.filter_congr hcongr, filter_range_lt 960 5 (by norm_num)]
      rfl
    rw [hx, hy]
    rfl
  constructor
  · rw [generate_some_eq, hfull, subsample_some]
    norm_num
    have h5 : ∀ a b c d e : Row, everyKth [a, b, c, d, e] 2 = [a, c, e] := by
      intro a b c d e
      rw [everyKth.eq_def]
      simp only [List.drop_succ_cons, List.drop_zero]
      rw [everyKth.eq_def]
      simp only [List.drop_succ_cons, List.drop_zero]
      rw [everyKth.eq_def]
      simp only [List.drop_succ_cons, List.drop_zero, List.drop_nil]
      rw [everyKth.eq_def]
    rw [h5]
    rfl
  · rw [hfull]
    rfl

